import Mathlib

/-!
Shallow embedding of the analytical core of the EV-battery SOH
standardization framework: `src/soh_calculator.py` (capacity/energy SOH via
charge/discharge integration) and `src/dv_analyzer.py` (differential-voltage
curve and degradation-mode detection, including the behaviour of
`peakutils.indexes`, which the analyzer calls for all three detectors).

Modelling conventions:
* machine floats are rationals (`ℚ`);
* the IEEE NaN marker written by `apply_voltage_window` is `none` in
  `Option ℚ`, with arithmetic propagating it and comparisons against it
  evaluating to false, as in numpy;
* a Python exception is `Except PyErr _` (when the class matters) or an
  `Option` `none` (when only "raised and caught" matters);
* `±inf`/NaN results of float division by zero do not arise on the inputs
  the theorems quantify over and are not modelled.
-/

namespace EVSOH

/-! ## Definitions: the embedded program -/

/-- The Python exception classes the embedding distinguishes:
`dv_analyzer.InvalidInputError` and numpy/scipy `ValueError`. -/
inductive PyErr where
  | invalidInput
  | valueError
  deriving DecidableEq, Repr

/-- A float cell that may hold NaN (`none`), as produced by
`np.where(..., data, np.nan)` in `apply_voltage_window`. -/
abbrev NVal := Option ℚ

/-- NaN-propagating addition. -/
def nadd : NVal → NVal → NVal
  | some a, some b => some (a + b)
  | _, _ => none

/-- NaN-propagating scaling by a plain float. -/
def nscale (q : ℚ) : NVal → NVal
  | some a => some (q * a)
  | none => none

/-- NaN-aware `<` against a plain float: any comparison with NaN is false,
as in numpy. -/
def nlt (a : NVal) (b : ℚ) : Bool :=
  match a with
  | some a => decide (a < b)
  | none => false

/-- `np.diff`: successive differences, one element shorter than the input. -/
def npdiff (y : List ℚ) : List ℚ := List.zipWith (fun a b => a - b) y.tail y

/-- `np.max` of a nonempty array (the empty case is handled at call sites,
where numpy raises). -/
def listMax : List ℚ → ℚ
  | [] => 0
  | x :: xs => xs.foldl max x

/-- `np.min` of a nonempty array. -/
def listMin : List ℚ → ℚ
  | [] => 0
  | x :: xs => xs.foldl min x

/-- `scipy.integrate.cumtrapz(y, x, initial=0)` on possibly-NaN data:
raises `ValueError` (here `none`) when the two lengths differ or the input
is empty; otherwise returns `0` followed by the running sums of the
trapezoid areas `(x[k+1]-x[k]) * (y[k]+y[k+1]) / 2`, one value per input
sample. -/
def cumtrapz (y : List NVal) (x : List ℚ) : Option (List NVal) :=
  if y.length = x.length ∧ y.length ≠ 0 then
    some (List.scanl nadd (some 0)
      (List.zipWith (fun d s => nscale (d / 2) s) (npdiff x)
        (List.zipWith nadd y.tail y)))
  else none

/-- The configuration fields `SOHCalculator` reads through `config.get`. -/
structure SOHConfig where
  voltage_window : ℚ × ℚ
  cutoff_charge : ℚ
  cutoff_discharge : ℚ

/-- `SOHCalculator.apply_voltage_window`: samples strictly inside the window
are kept, the rest become NaN (`np.where((data > w0) & (data < w1), data,
np.nan)`). -/
def apply_voltage_window (cfg : SOHConfig) (data : List ℚ) : List NVal :=
  data.map (fun x =>
    if cfg.voltage_window.1 < x ∧ x < cfg.voltage_window.2 then some x else none)

/-- `SOHCalculator.integrate_charge_discharge`.  `integrate.cumtrapz` returns
a single array of the same length as its input, which the source
tuple-unpacks (`charge, _ = integrate.cumtrapz(...)`): the unpack succeeds
only when that array has exactly two elements, binding `charge` to its first
element — a 0-d scalar that is always the `initial=0` value; any other
length raises, the handler catches it, and the function returns the
`(None, None)` sentinel, modelled as `none`. -/
def integrate_charge_discharge (data : List NVal) (time : List ℚ) :
    Option (NVal × NVal) :=
  match cumtrapz data time with
  | none => none
  | some charge =>
    if charge.length = 2 then
      match cumtrapz (data.map (nscale (-1))) time with
      | none => none
      | some discharge =>
        if discharge.length = 2 then some (charge.headI, discharge.headI)
        else none
    else none

/-- `SOHCalculator.validate_cutoff_conditions`, as the pipeline invokes it on
the two unpacked 0-d scalars: `np.any((charge < cc) | (discharge < cd))`
negated. -/
def validate_cutoff_conditions (cfg : SOHConfig) (charge discharge : NVal) :
    Bool :=
  !(nlt charge cfg.cutoff_charge || nlt discharge cfg.cutoff_discharge)

/-- Subscripting a 0-d numpy scalar (`x[-1]`, `x[0]` on a `np.float64`)
raises `TypeError` unconditionally; modelled as an always-failing lookup. -/
def npScalarSubscript (_x : NVal) (_i : ℤ) : Option NVal := none

/-- NaN-propagating subtraction. -/
def nsub : NVal → NVal → NVal
  | some a, some b => some (a - b)
  | _, _ => none

/-- `SOHCalculator.calculate_capacity_soh_velocity_threshold` applied to the
0-d scalars the pipeline hands it: the very first subscript `charge[-1]`
raises `TypeError`, the handler catches it and returns `None`. -/
def velocity_threshold_on_scalars (charge discharge : NVal) : Option ℚ := do
  let a ← npScalarSubscript charge (-1)
  let b ← npScalarSubscript charge 0
  let c ← npScalarSubscript discharge (-1)
  let d ← npScalarSubscript discharge 0
  match nsub a b, nsub c d with
  | some x, some yq => some (x / yq)
  | _, _ => none

/-- `SOHCalculator.calculate_energy_soh_flow_theory` applied to the 0-d
scalars the pipeline hands it; textually identical to the capacity
variant. -/
def flow_theory_on_scalars (charge discharge : NVal) : Option ℚ := do
  let a ← npScalarSubscript charge (-1)
  let b ← npScalarSubscript charge 0
  let c ← npScalarSubscript discharge (-1)
  let d ← npScalarSubscript discharge 0
  match nsub a b, nsub c d with
  | some x, some yq => some (x / yq)
  | _, _ => none

/-- `SOHCalculator.calculate_capacity_soh_velocity_threshold` on genuine
one-dimensional arrays (its declared interface): `charge[-1]`, `charge[0]`
index the arrays (an `IndexError` on an empty array is caught and yields
`None`), and `np.mean` of the resulting 0-d quotient is that quotient. -/
def calculate_capacity_soh_velocity_threshold (charge discharge : List ℚ) :
    Option ℚ :=
  match charge.getLast?, charge.head?, discharge.getLast?, discharge.head? with
  | some cl, some c0, some dl, some d0 => some ((cl - c0) / (dl - d0))
  | _, _, _, _ => none

/-- `SOHCalculator.calculate_energy_soh_flow_theory` on genuine arrays;
textually the same reduction as the capacity variant. -/
def calculate_energy_soh_flow_theory (charge discharge : List ℚ) :
    Option ℚ :=
  match charge.getLast?, charge.head?, discharge.getLast?, discharge.head? with
  | some cl, some c0, some dl, some d0 => some ((cl - c0) / (dl - d0))
  | _, _, _, _ => none

/-- `SOHCalculator.calculate_capacity_soh` on the two columns of the input
frame.  Every failure path of the source funnels into the `None` sentinel
through its try/except blocks: an unpack failure makes
`integrate_charge_discharge` return `(None, None)`, whereupon the cutoff
comparison `None < cutoff` raises `TypeError`, is caught, and the warning
branch returns `None`; a length-2 input survives to the reduction, which
dies subscripting the 0-d scalars. -/
def calculate_capacity_soh (cfg : SOHConfig) (capacity time : List ℚ) :
    Option ℚ :=
  let windowed := apply_voltage_window cfg capacity
  match integrate_charge_discharge windowed time with
  | none => none
  | some (charge, discharge) =>
    if validate_cutoff_conditions cfg charge discharge then
      velocity_threshold_on_scalars charge discharge
    else none

/-- `SOHCalculator.calculate_energy_soh`: same pipeline shape as the
capacity variant, reducing with the Flow-Theory formula. -/
def calculate_energy_soh (cfg : SOHConfig) (energy time : List ℚ) :
    Option ℚ :=
  let windowed := apply_voltage_window cfg energy
  match integrate_charge_discharge windowed time with
  | none => none
  | some (charge, discharge) =>
    if validate_cutoff_conditions cfg charge discharge then
      flow_theory_on_scalars charge discharge
    else none

/-- `dv_analyzer.Config()` — the module-level singleton `config`. -/
structure Config where
  dv_window_size : ℕ := 5
  dv_threshold : ℚ := 5 / 1000
  lam_pe_threshold : ℚ := 5 / 100
  lam_ne_threshold : ℚ := -(5 / 100)
  lli_threshold : ℚ := -(1 / 10)
  velocity_threshold : ℚ := 2 / 10
  capacity_weight : ℚ := 6 / 10
  energy_weight : ℚ := 4 / 10
  sampling_rate : ℕ := 10

/-- The module-level `config = Config()` instance of `dv_analyzer`. -/
def config : Config := {}

/-- `DVAnalyzer._validate_input`, with the three checks in source order:
equal lengths, strictly positive current, non-decreasing SOC. -/
def _validate_input (voltage current soc : List ℚ) : Except PyErr Unit :=
  if voltage.length ≠ current.length ∨ voltage.length ≠ soc.length then
    .error .invalidInput
  else if ∃ x ∈ current, x ≤ 0 then .error .invalidInput
  else if ¬ List.Chain' (· ≤ ·) soc then .error .invalidInput
  else .ok ()

/-- The `DVAnalyzer` object state after a successful `__init__`. -/
structure DVAnalyzer where
  voltage : List ℚ
  current : List ℚ
  soc : List ℚ

/-- `DVAnalyzer.__init__`: stores the arrays then validates; a validation
error propagates out of the constructor, so no analyzer object (and no
partial curve or degradation-mode result) exists on failure. -/
def DVAnalyzer.init (voltage current soc : List ℚ) :
    Except PyErr DVAnalyzer :=
  match _validate_input voltage current soc with
  | .error e => .error e
  | .ok _ => .ok ⟨voltage, current, soc⟩

/-- Full discrete convolution: entry `k` is `Σ_i a[i] * v[k-i]`. -/
def convFull (a v : List ℚ) : List ℚ :=
  (List.range (a.length + v.length - 1)).map (fun k =>
    ((List.range a.length).map (fun i =>
      if i ≤ k ∧ k < i + v.length then a.getD i 0 * v.getD (k - i) 0
      else 0)).sum)

/-- `np.convolve(a, v, mode='valid')`: raises `ValueError` when either
input is empty; otherwise the `max - min + 1` central entries of the full
convolution — those where the shorter array fully overlaps the longer. -/
def npConvolveValid (a v : List ℚ) : Except PyErr (List ℚ) :=
  if a.length = 0 ∨ v.length = 0 then .error .valueError
  else .ok (((convFull a v).drop (min a.length v.length - 1)).take
    (max a.length v.length - min a.length v.length + 1))

/-- `np.ones(w)`: a negative size raises `ValueError`. -/
def np_ones (w : ℤ) : Except PyErr (List ℚ) :=
  if w < 0 then .error .valueError else .ok (List.replicate w.toNat 1)

/-- `DVAnalyzer._smooth(data, window_size)`: the box window
`np.ones(w)/w` convolved with the data in `valid` mode.  The source
performs no validation of its own; the only failures are numpy
`ValueError`s (negative size, empty window, empty data). -/
def _smooth (data : List ℚ) (window_size : ℤ) : Except PyErr (List ℚ) :=
  match np_ones window_size with
  | .error e => .error e
  | .ok ones =>
    npConvolveValid data (ones.map (fun x => x / (window_size : ℚ)))

/-- `np.gradient(y)` with unit spacing: one-sided differences at the two
edges, central differences at interior points; arrays shorter than 2
raise. -/
def npGradient (y : List ℚ) : Option (List ℚ) :=
  if y.length < 2 then none
  else some ((List.range y.length).map (fun i =>
    if i = 0 then y.getD 1 0 - y.getD 0 0
    else if i = y.length - 1 then y.getD i 0 - y.getD (i - 1) 0
    else (y.getD (i + 1) 0 - y.getD (i - 1) 0) / 2))

/-- The raw (unsmoothed) dV/dSOC curve of `DVAnalyzer._calculate_dv`:
`np.gradient(voltage) / np.gradient(soc)` pointwise. -/
def rawDV (voltage soc : List ℚ) : Option (List ℚ) :=
  match npGradient voltage, npGradient soc with
  | some gv, some gs => some (List.zipWith (fun p q => p / q) gv gs)
  | _, _ => none

/-- `DVAnalyzer._calculate_dv`: raw curve, then `_smooth` with the
configured window size (a gradient failure propagates as a numpy error). -/
def _calculate_dv (voltage soc : List ℚ) : Except PyErr (List ℚ) :=
  match rawDV voltage soc with
  | none => .error .valueError
  | some dv => _smooth dv (config.dv_window_size : ℤ)

/-- Number of zero entries of `dy` (the size of `np.where(dy == 0)`). -/
def countZeros (dy : List ℚ) : ℕ := dy.countP (fun d => decide (d = 0))

/-- peakutils relative-threshold normalization (default `thres_abs=False`):
`thres * (max(y) - min(y)) + min(y)`. -/
def normThres (y : List ℚ) (thres : ℚ) : ℚ :=
  thres * (listMax y - listMin y) + listMin y

/-- Start of the zero-plateau of `dy` containing position `i`: walk left
while the entry below is zero. -/
def plateauStart (dy : List ℚ) : ℕ → ℕ
  | 0 => 0
  | i + 1 => if dy.getD i 0 = 0 then plateauStart dy i else i + 1

/-- End of the zero-plateau of `dy` containing position `i`: walk right
while the next entry is zero. -/
def plateauEnd (dy : List ℚ) (i : ℕ) : ℕ :=
  if h : i + 1 < dy.length ∧ dy.getD (i + 1) 0 = 0 then plateauEnd dy (i + 1)
  else i
termination_by dy.length - i
decreasing_by
  exact Nat.sub_succ_lt_self _ _ (Nat.lt_of_succ_lt h.1)

/-- The plateau-filling pass of `peakutils.indexes`: each zero run of `dy`
is overwritten in place — a run starting at index 0 copies the value just
right of it, a run ending at the last index copies the value just left of
it, and an interior run is split at its median (`np.median` of the run,
i.e. `(a+b)/2`), the strictly-left part copying the left neighbour and the
rest the right neighbour.  (An all-zero `dy` never reaches this point: the
caller returns early on flat signals.) -/
def fillDy (dy : List ℚ) : List ℚ :=
  (List.range dy.length).map (fun i =>
    if dy.getD i 0 ≠ 0 then dy.getD i 0
    else
      let a := plateauStart dy i
      let b := plateauEnd dy i
      if a = 0 then dy.getD (b + 1) 0
      else if b = dy.length - 1 then dy.getD (a - 1) 0
      else if 2 * i < a + b then dy.getD (a - 1) 0
      else dy.getD (b + 1) 0)

/-- The pre-suppression peak candidates of `peakutils.indexes`: indices
with a strictly positive (filled) difference on the left and a strictly
negative one on the right — the zero-padded ends never qualify — whose
value clears the normalized threshold. -/
def peakutilsCandidates (y : List ℚ) (thres : ℚ) : List ℕ :=
  (List.range y.length).filter (fun i =>
    decide (i + 1 < y.length) && decide (0 < i) &&
    decide ((fillDy (npdiff y)).getD i 0 < 0) &&
    decide (0 < (fillDy (npdiff y)).getD (i - 1) 0) &&
    decide (normThres y thres < y.getD i 0))

/-- One step of the peakutils minimum-distance suppression: if candidate
`p` is still alive, suppress every index in the window
`[max(0, p-d), p+d]` and revive `p` itself. -/
def nmsStep (n d : ℕ) (rem : List Bool) (p : ℕ) : List Bool :=
  if rem.getD p true then rem
  else (List.range n).map (fun i =>
    if i = p then false
    else if p ≤ i + d ∧ i ≤ p + d then true
    else rem.getD i true)

/-- The peakutils minimum-distance suppression (entered when there is more
than one candidate and `min_dist > 1`): candidates are visited from
highest to lowest value — `peaks[np.argsort(y[peaks])][::-1]`.  numpy's
unstable `argsort` is modelled by a stable ascending insertion sort
followed by the reversal; the two can differ only in the visiting order of
equal-valued peaks. -/
def nms (y : List ℚ) (d : ℕ) (peaks : List ℕ) : List ℕ :=
  if 1 < peaks.length ∧ 1 < d then
    let highest :=
      (List.insertionSort (fun p q => y.getD p 0 ≤ y.getD q 0) peaks).reverse
    let rem0 := (List.range y.length).map (fun i => !peaks.contains i)
    let remF := highest.foldl (nmsStep y.length d) rem0
    (List.range y.length).filter (fun i => !remF.getD i true)
  else peaks

/-- `peakutils.indexes(y, thres, min_dist)` with the default relative
threshold semantics: `np.max` on an empty array raises (`none`); a flat
signal (every difference zero) yields no peaks; otherwise the thresholded
local maxima of the plateau-filled differences survive minimum-distance
suppression. -/
def peakutilsIndexes (y : List ℚ) (thres : ℚ) (minDist : ℕ) :
    Option (List ℕ) :=
  if y.length = 0 then none
  else if countZeros (npdiff y) = y.length - 1 then some []
  else some (nms y minDist (peakutilsCandidates y thres))

/-- `DVAnalyzer._detect_lam_pe`:
`indices(dv, thres=config.lam_pe_threshold, min_dist=config.dv_window_size)`. -/
def _detect_lam_pe (dv : List ℚ) : Option (List ℕ) :=
  peakutilsIndexes dv config.lam_pe_threshold config.dv_window_size

/-- `DVAnalyzer._detect_lam_ne`:
`indices(-dv, thres=config.lam_ne_threshold, min_dist=config.dv_window_size)`. -/
def _detect_lam_ne (dv : List ℚ) : Option (List ℕ) :=
  peakutilsIndexes (dv.map (fun x => -x)) config.lam_ne_threshold
    config.dv_window_size

/-- `DVAnalyzer._detect_lli`:
`indices(dv, thres=config.lli_threshold, min_dist=config.dv_window_size)`. -/
def _detect_lli (dv : List ℚ) : Option (List ℕ) :=
  peakutilsIndexes dv config.lli_threshold config.dv_window_size

/-- Loop invariant of the peakutils suppression pass over the pending list
`hl`: `rem` has full length; live (`false`) cells are candidates; a live
candidate that is no longer pending owns its window exclusively; every
dead candidate is dominated by some live, no-longer-pending candidate
within the window. -/
structure NmsInv (y : List ℚ) (d : ℕ) (peaks hl : List ℕ)
    (rem : List Bool) : Prop where
  len : rem.length = y.length
  live_mem : ∀ i, rem.getD i true = false → i ∈ peaks
  kept_clear : ∀ i, rem.getD i true = false → i ∉ hl →
    ∀ j, j ≠ i → i ≤ j + d → j ≤ i + d → rem.getD j true = true
  dead_dom : ∀ i, i ∈ peaks → rem.getD i true = true →
    ∃ k, rem.getD k true = false ∧ k ∉ hl ∧ i ≤ k + d ∧ k ≤ i + d ∧
      y.getD i 0 ≤ y.getD k 0

/-- A concrete curve with three candidate peaks (indices 2, 6, 10 of
values 10, 5, 3): 2 and 6 fall in one suppression window, 6 and 10 in
another, while 2 and 10 are far apart. -/
def cexCurve : List ℚ := [0, 1, 10, 1, 0, 1, 5, 1, 0, 1, 3, 0]

/-! ## Lemmas and claim theorems -/

lemma velocity_threshold_on_scalars_none (c d : NVal) :
    velocity_threshold_on_scalars c d = none := rfl

lemma flow_theory_on_scalars_none (c d : NVal) :
    flow_theory_on_scalars c d = none := rfl

/-- Both frame-level SOH entry points return the `None` sentinel on every
input, whatever the configuration. -/
lemma soh_pipeline_none (cfg : SOHConfig) (xs time : List ℚ) :
    calculate_capacity_soh cfg xs time = none ∧
    calculate_energy_soh cfg xs time = none := by
  constructor
  · cases h : integrate_charge_discharge (apply_voltage_window cfg xs) time with
    | none => simp [calculate_capacity_soh, h]
    | some p =>
      obtain ⟨c, d⟩ := p
      simp [calculate_capacity_soh, h, velocity_threshold_on_scalars_none]
  · cases h : integrate_charge_discharge (apply_voltage_window cfg xs) time with
    | none => simp [calculate_energy_soh, h]
    | some p =>
      obtain ⟨c, d⟩ := p
      simp [calculate_energy_soh, h, flow_theory_on_scalars_none]

lemma getLast?_eq_getD_of_ne_nil (l : List ℚ) (h : l ≠ []) :
    l.getLast? = some (l.getD (l.length - 1) 0) := by
  rw [List.getLast?_eq_getElem?, List.getD_eq_getElem?_getD]
  have hlen : l.length - 1 < l.length := by
    cases l with
    | nil => exact absurd rfl h
    | cons a as => simp
  rw [List.getElem?_eq_getElem hlen]
  rfl

lemma head?_eq_getD_of_ne_nil (l : List ℚ) (h : l ≠ []) :
    l.head? = some (l.getD 0 0) := by
  cases l with
  | nil => exact absurd rfl h
  | cons a as => rfl

/-- C1.  The SOH reduction computes `(charge[-1] - charge[0]) /
(discharge[-1] - discharge[0])` (the `np.mean` wrapper is the identity on
this 0-d quotient), and on identical charge/discharge arrays whose last
value differs from the first it returns exactly 1. -/
theorem soh_reduction_ratio :
    (∀ charge discharge : List ℚ, charge ≠ [] → discharge ≠ [] →
      calculate_capacity_soh_velocity_threshold charge discharge =
        some ((charge.getD (charge.length - 1) 0 - charge.getD 0 0) /
          (discharge.getD (discharge.length - 1) 0 - discharge.getD 0 0)) ∧
      calculate_energy_soh_flow_theory charge discharge =
        some ((charge.getD (charge.length - 1) 0 - charge.getD 0 0) /
          (discharge.getD (discharge.length - 1) 0 - discharge.getD 0 0))) ∧
    (∀ a : List ℚ, a ≠ [] →
      a.getD (a.length - 1) 0 ≠ a.getD 0 0 →
      calculate_capacity_soh_velocity_threshold a a = some 1) := by
  have hform : ∀ charge discharge : List ℚ, charge ≠ [] → discharge ≠ [] →
      calculate_capacity_soh_velocity_threshold charge discharge =
        some ((charge.getD (charge.length - 1) 0 - charge.getD 0 0) /
          (discharge.getD (discharge.length - 1) 0 - discharge.getD 0 0)) := by
    intro c d hc hd
    unfold calculate_capacity_soh_velocity_threshold
    rw [getLast?_eq_getD_of_ne_nil c hc, head?_eq_getD_of_ne_nil c hc,
      getLast?_eq_getD_of_ne_nil d hd, head?_eq_getD_of_ne_nil d hd]
  refine ⟨fun c d hc hd => ⟨hform c d hc hd, ?_⟩, fun a ha hne => ?_⟩
  · unfold calculate_energy_soh_flow_theory
    rw [getLast?_eq_getD_of_ne_nil c hc, head?_eq_getD_of_ne_nil c hc,
      getLast?_eq_getD_of_ne_nil d hd, head?_eq_getD_of_ne_nil d hd]
  · rw [hform a a ha ha, div_self (sub_ne_zero_of_ne hne)]

/-- Witness for C1: on the concrete identical accumulators `[0, 2]` the
reduction returns exactly 1. -/
theorem soh_reduction_ratio_witness :
    calculate_capacity_soh_velocity_threshold [0, 2] [0, 2] = some 1 :=
  soh_reduction_ratio.2 [0, 2] (by decide) (by decide)

/-- C3 (code bug).  On `data = [0, 1, 2]`, `time = [0, 1, 2]`,
`cumtrapz` itself produces the claimed cumulative trapezoid
`[0, 1/2, 2]`, but `integrate_charge_discharge` tuple-unpacks that
length-3 array, raises, and returns the `(None, None)` sentinel instead of
the two integral arrays the claim (and the source docstring) promise. -/
theorem integrate_unpack_bug :
    cumtrapz [some 0, some 1, some 2] [0, 1, 2] =
      some [some 0, some (1/2), some 2] ∧
    integrate_charge_discharge [some 0, some 1, some 2] [0, 1, 2] = none := by
  constructor
  · norm_num [cumtrapz, npdiff, nadd, nscale, List.scanl]
  · norm_num [integrate_charge_discharge, cumtrapz, npdiff, nadd, nscale,
      List.scanl]

/-- C4.  For every input frame (any capacity/energy column, any time
column) and every configuration, both SOH entry points return the `None`
sentinel: the unpack of the single cumtrapz array fails for every length
except 2, and for length-2 inputs the reduction fails subscripting the
unpacked 0-d scalars. -/
theorem calculate_soh_always_none (cfg : SOHConfig) (xs time : List ℚ) :
    calculate_capacity_soh cfg xs time = none ∧
    calculate_energy_soh cfg xs time = none :=
  soh_pipeline_none cfg xs time

/-- C10.  When the series and its time axis differ in length (or are
empty), both SOH entry points return the `None` sentinel; the model is a
total function, reflecting that the source catches every exception on
these paths. -/
theorem soh_length_mismatch_sentinel (cfg : SOHConfig) (xs time : List ℚ)
    (_h : xs.length ≠ time.length ∨ xs = []) :
    calculate_capacity_soh cfg xs time = none ∧
    calculate_energy_soh cfg xs time = none :=
  soh_pipeline_none cfg xs time

/-- Witness for C10 at the concrete mismatched input `[1]` / `[]` with an
arbitrary concrete configuration. -/
theorem soh_length_mismatch_sentinel_witness :
    calculate_capacity_soh ⟨(0, 10), 0, 0⟩ [1] [] = none ∧
    calculate_energy_soh ⟨(0, 10), 0, 0⟩ [1] [] = none :=
  soh_length_mismatch_sentinel ⟨(0, 10), 0, 0⟩ [1] [] (by decide)

/-- C9.  The constructor raises `InvalidInputError` exactly when a
MeasurementTriple invariant fails — unequal lengths, a non-positive
current sample, or non-monotone SOC — and on success returns the analyzer
holding exactly the three input arrays (so a violation aborts the whole
analysis and nothing partial escapes). -/
theorem validate_input_iff (v c s : List ℚ) :
    (DVAnalyzer.init v c s = .error .invalidInput ↔
      v.length ≠ c.length ∨ v.length ≠ s.length ∨ (∃ x ∈ c, x ≤ 0) ∨
        ¬ List.Chain' (· ≤ ·) s) ∧
    (∀ q : DVAnalyzer, DVAnalyzer.init v c s = .ok q →
      q.voltage = v ∧ q.current = c ∧ q.soc = s) := by
  constructor
  · by_cases h1 : v.length ≠ c.length ∨ v.length ≠ s.length
    · simp only [DVAnalyzer.init, _validate_input, if_pos h1]
      simp
      tauto
    · by_cases h2 : ∃ x ∈ c, x ≤ 0
      · simp [DVAnalyzer.init, _validate_input, h1, h2]
      · by_cases h3 : ¬ List.Chain' (· ≤ ·) s
        · simp [DVAnalyzer.init, _validate_input, h1, h2, h3]
        · simp [DVAnalyzer.init, _validate_input, h1, h2, h3]
  · intro q hq
    by_cases h1 : v.length ≠ c.length ∨ v.length ≠ s.length
    · simp [DVAnalyzer.init, _validate_input, h1] at hq
    · by_cases h2 : ∃ x ∈ c, x ≤ 0
      · simp [DVAnalyzer.init, _validate_input, h1, h2] at hq
      · by_cases h3 : ¬ List.Chain' (· ≤ ·) s
        · simp [DVAnalyzer.init, _validate_input, h1, h2, h3] at hq
        · simp [DVAnalyzer.init, _validate_input, h1, h2, h3] at hq
          simp [← hq]

/-- Witness for C9: a triple with a non-positive current sample is
rejected with `InvalidInputError`. -/
theorem validate_input_iff_witness :
    DVAnalyzer.init [1] [0] [1] = .error .invalidInput :=
  (validate_input_iff [1] [0] [1]).1.mpr
    (Or.inr (Or.inr (Or.inl ⟨0, by decide, le_refl 0⟩)))

lemma sum_map_range (f : ℕ → ℚ) (n : ℕ) :
    ((List.range n).map f).sum = ∑ i ∈ Finset.range n, f i := by
  induction n with
  | zero => simp
  | succ k ih =>
    rw [List.range_succ, List.map_append, List.sum_append,
      Finset.sum_range_succ, ih]
    simp

lemma convFull_length (a v : List ℚ) :
    (convFull a v).length = a.length + v.length - 1 := by
  simp [convFull]

lemma convFull_getD (a v : List ℚ) (k : ℕ)
    (hk : k < a.length + v.length - 1) :
    (convFull a v).getD k 0 =
      ∑ i ∈ Finset.range a.length,
        if i ≤ k ∧ k < i + v.length then a.getD i 0 * v.getD (k - i) 0
        else 0 := by
  rw [List.getD_eq_getElem?_getD,
    List.getElem?_eq_getElem (by simpa [convFull_length] using hk)]
  unfold convFull
  rw [List.getElem_map]
  simp only [List.getElem_range]
  simp [sum_map_range]

/-- The `valid`-mode box-filter smoothing, characterised entrywise for a
window that fits inside the data. -/
lemma smooth_ok (data : List ℚ) (w : ℕ) (h1 : 1 ≤ w)
    (h2 : w ≤ data.length) :
    ∃ l, _smooth data (w : ℤ) = .ok l ∧
      l.length = data.length - (w - 1) ∧
      ∀ j, j + w ≤ data.length →
        l.getD j 0 = (∑ i ∈ Finset.range w, data.getD (j + i) 0) / w := by
  have hw0 : ¬ ((w : ℤ) < 0) := by omega
  have htn : (w : ℤ).toNat = w := Int.toNat_natCast w
  have hvl : (List.replicate w (1 : ℚ)).map (fun x => x / (w : ℚ)) =
      List.replicate w ((1 : ℚ) / (w : ℚ)) := by
    rw [List.map_replicate]
  have hne : ¬ (data.length = 0 ∨ (List.replicate w ((1:ℚ)/(w:ℚ))).length = 0) := by
    simp only [List.length_replicate]
    omega
  have hmin : min data.length w = w := by omega
  have hmax : max data.length w = data.length := by omega
  have hok : _smooth data (w : ℤ) =
      .ok (((convFull data (List.replicate w ((1:ℚ)/(w:ℚ)))).drop
        (min data.length (List.replicate w ((1:ℚ)/(w:ℚ))).length - 1)).take
        (max data.length (List.replicate w ((1:ℚ)/(w:ℚ))).length -
          min data.length (List.replicate w ((1:ℚ)/(w:ℚ))).length + 1)) := by
    unfold _smooth np_ones
    rw [if_neg hw0]
    show npConvolveValid data _ = _
    rw [htn]
    simp only [Int.cast_natCast]
    rw [hvl]
    unfold npConvolveValid
    rw [if_neg hne]
  refine ⟨_, hok, ?_, ?_⟩
  · simp only [List.length_take, List.length_drop, convFull_length,
      List.length_replicate, hmin, hmax]
    omega
  · intro j hj
    have hjlt : j < (((convFull data (List.replicate w ((1:ℚ)/(w:ℚ)))).drop
        (min data.length (List.replicate w ((1:ℚ)/(w:ℚ))).length - 1)).take
        (max data.length (List.replicate w ((1:ℚ)/(w:ℚ))).length -
          min data.length (List.replicate w ((1:ℚ)/(w:ℚ))).length + 1)).length := by
      simp only [List.length_take, List.length_drop, convFull_length,
        List.length_replicate, hmin, hmax]
      omega
    rw [List.getD_eq_getElem?_getD, List.getElem?_eq_getElem hjlt]
    simp only [List.getElem_take, List.getElem_drop, List.length_replicate,
      hmin, hmax]
    have hk : w - 1 + j < data.length + w - 1 := by omega
    rw [← List.getD_eq_getElem
      (convFull data (List.replicate w ((1:ℚ)/(w:ℚ)))) 0
      (show w - 1 + j < (convFull data
        (List.replicate w ((1:ℚ)/(w:ℚ)))).length from
        by simpa [convFull_length] using hk)]
    rw [convFull_getD data _ (w - 1 + j) (by simpa using hk)]
    have hstep : ∀ i ∈ Finset.range data.length,
        (if i ≤ w - 1 + j ∧ w - 1 + j < i + (List.replicate w ((1:ℚ)/(w:ℚ))).length
          then data.getD i 0 * (List.replicate w ((1:ℚ)/(w:ℚ))).getD (w - 1 + j - i) 0
          else 0) =
        (if i ∈ Finset.Ico j (j + w) then data.getD i 0 * ((1:ℚ)/(w:ℚ)) else 0) := by
      intro i _
      by_cases hmem : i ∈ Finset.Ico j (j + w)
      · have hmem' : j ≤ i ∧ i < j + w := Finset.mem_Ico.mp hmem
        have hcond : i ≤ w - 1 + j ∧
            w - 1 + j < i + (List.replicate w ((1:ℚ)/(w:ℚ))).length := by
          simp only [List.length_replicate]
          omega
        have hlt : w - 1 + j - i < w := by omega
        rw [if_pos hcond, if_pos hmem,
          List.getD_eq_getElem (List.replicate w ((1:ℚ)/(w:ℚ))) 0 (by simpa using hlt),
          List.getElem_replicate]
      · have hmem' : ¬ (j ≤ i ∧ i < j + w) := fun hc => hmem (Finset.mem_Ico.mpr hc)
        have hcond : ¬ (i ≤ w - 1 + j ∧
            w - 1 + j < i + (List.replicate w ((1:ℚ)/(w:ℚ))).length) := by
          simp only [List.length_replicate]
          omega
        rw [if_neg hcond, if_neg hmem]
    rw [Finset.sum_congr rfl hstep, Finset.sum_ite_mem,
      Finset.inter_eq_right.mpr (by
        intro i hi
        have := Finset.mem_Ico.mp hi
        exact Finset.mem_range.mpr (by omega)),
      ← Finset.sum_mul, Finset.sum_Ico_eq_sum_range,
      show j + w - j = w from by omega, mul_one_div]
    rfl

/-- C7.  For `1 ≤ w ≤ len(data)`, smoothing is the box filter of weight
`1/w` per tap: the output is shorter than the input by exactly `w - 1`
samples, entry `j` is the mean of the window `data[j .. j+w-1]`, and
`w = 1` reproduces the input unchanged. -/
theorem smooth_box_filter (data : List ℚ) (w : ℕ) (h1 : 1 ≤ w)
    (h2 : w ≤ data.length) :
    ∃ l, _smooth data (w : ℤ) = .ok l ∧
      l.length = data.length - (w - 1) ∧
      (∀ j, j + w ≤ data.length →
        l.getD j 0 = (∑ i ∈ Finset.range w, data.getD (j + i) 0) / w) ∧
      (w = 1 → l = data) := by
  obtain ⟨l, hok, hlen, hval⟩ := smooth_ok data w h1 h2
  refine ⟨l, hok, hlen, hval, ?_⟩
  intro hw1
  subst hw1
  have hlen1 : l.length = data.length := by omega
  apply List.ext_getElem hlen1
  intro j hj1 hj2
  have hval' := hval j (by omega)
  simp only [Finset.range_one, Finset.sum_singleton, Nat.add_zero,
    Nat.cast_one, div_one] at hval'
  rw [List.getD_eq_getElem?_getD, List.getElem?_eq_getElem hj1,
    List.getD_eq_getElem?_getD, List.getElem?_eq_getElem hj2] at hval'
  simpa using hval'

/-- Witness for C7 at `data = [1, 2, 3]`, `w = 2`. -/
theorem smooth_box_filter_witness :
    ∃ l, _smooth [1, 2, 3] ((2 : ℕ) : ℤ) = .ok l ∧
      l.length = [1, 2, 3].length - (2 - 1) ∧
      (∀ j, j + 2 ≤ ([1, 2, 3] : List ℚ).length →
        l.getD j 0 = (∑ i ∈ Finset.range 2, ([1, 2, 3] : List ℚ).getD (j + i) 0) / 2) ∧
      (2 = 1 → l = [1, 2, 3]) := by
  have := smooth_box_filter [1, 2, 3] 2 (by decide) (by decide)
  simpa using this

/-- C8 counterexample.  With `data = [3, 3]` and `window_size = 3` the
window exceeds the data length, yet `_smooth` raises nothing at all — it
returns the length-2 swapped-role valid convolution `[2, 2]` — refuting
"fails with `InvalidInputError` whenever `window_size > len(data)`". -/
theorem smooth_oversized_window_cex :
    (([3, 3] : List ℚ).length < 3) ∧
    _smooth [3, 3] 3 = .ok [2, 2] := by
  constructor
  · decide
  · norm_num [_smooth, np_ones, npConvolveValid, convFull,
      show (3 : ℤ).toNat = 3 from rfl, List.replicate, List.range_succ,
      List.getD, List.getElem?_cons]

/-- C8 (amended).  `_smooth` performs no validation and never raises
`InvalidInputError`: a non-positive window size fails with a numpy
`ValueError` (negative size or empty window), an empty data array fails
with a numpy `ValueError`, and every window size `w ≥ 1` on nonempty data
— including `w > len(data)` — succeeds, returning the `valid`-mode
convolution of length `max(len, w) - min(len, w) + 1`. -/
theorem smooth_error_behaviour (data : List ℚ) (w : ℤ) :
    (w ≤ 0 → _smooth data w = .error .valueError) ∧
    (1 ≤ w → data = [] → _smooth data w = .error .valueError) ∧
    (1 ≤ w → data ≠ [] →
      ∃ l, _smooth data w = .ok l ∧
        l.length = max data.length w.toNat - min data.length w.toNat + 1) := by
  refine ⟨?_, ?_, ?_⟩
  · intro hw
    by_cases hneg : w < 0
    · unfold _smooth np_ones
      rw [if_pos hneg]
    · have hw0 : w = 0 := by omega
      subst hw0
      unfold _smooth np_ones
      simp [npConvolveValid]
  · intro hw hdata
    subst hdata
    unfold _smooth np_ones
    rw [if_neg (by omega)]
    show npConvolveValid [] _ = _
    simp [npConvolveValid]
  · intro hw hdata
    have hm : (List.replicate w.toNat (1 : ℚ)).map (fun x => x / (w : ℚ)) =
        List.replicate w.toNat ((1 : ℚ) / (w : ℚ)) := List.map_replicate ..
    have hd0 : data.length ≠ 0 := fun hc => hdata (List.eq_nil_of_length_eq_zero hc)
    have hw0 : w.toNat ≠ 0 := by omega
    have hok : _smooth data w =
        .ok (((convFull data (List.replicate w.toNat ((1:ℚ)/(w:ℚ)))).drop
          (min data.length (List.replicate w.toNat ((1:ℚ)/(w:ℚ))).length - 1)).take
          (max data.length (List.replicate w.toNat ((1:ℚ)/(w:ℚ))).length -
            min data.length (List.replicate w.toNat ((1:ℚ)/(w:ℚ))).length + 1)) := by
      unfold _smooth np_ones
      rw [if_neg (by omega)]
      show npConvolveValid data _ = _
      rw [hm]
      unfold npConvolveValid
      rw [if_neg (by simp only [List.length_replicate]; omega)]
    refine ⟨_, hok, ?_⟩
    simp only [List.length_take, List.length_drop, convFull_length,
      List.length_replicate]
    omega

lemma npGradient_eq (y : List ℚ) (h2 : 2 ≤ y.length) :
    npGradient y = some ((List.range y.length).map (fun i =>
      if i = 0 then y.getD 1 0 - y.getD 0 0
      else if i = y.length - 1 then y.getD i 0 - y.getD (i - 1) 0
      else (y.getD (i + 1) 0 - y.getD (i - 1) 0) / 2)) := by
  unfold npGradient
  rw [if_neg (by omega)]

/-- C2.  For a valid MeasurementTriple whose SOC advances by a constant
positive step and whose voltage is affine in SOC, the raw (unsmoothed)
dV/dSOC curve `np.gradient(voltage)/np.gradient(soc)` has the same length
as the input and every sample equals the slope `m` of voltage versus SOC
(one-sided differences at the edges, central differences inside). -/
theorem raw_dv_linear_slope (n : ℕ) (st a m : ℚ)
    (voltage current soc : List ℚ)
    (hn : 2 ≤ n) (hpos : 0 < st)
    (hvl : voltage.length = n) (hsl : soc.length = n)
    (_hvalid : _validate_input voltage current soc = .ok ())
    (hstep : ∀ i, i + 1 < n → soc.getD (i + 1) 0 - soc.getD i 0 = st)
    (hlin : ∀ i, i < n → voltage.getD i 0 = a + m * soc.getD i 0) :
    ∃ l, rawDV voltage soc = some l ∧ l.length = n ∧
      ∀ i, i < n → l.getD i 0 = m := by
  have hst : st ≠ 0 := ne_of_gt hpos
  have hraw : rawDV voltage soc = some (List.zipWith (fun p q => p / q)
      ((List.range n).map (fun i =>
        if i = 0 then voltage.getD 1 0 - voltage.getD 0 0
        else if i = n - 1 then voltage.getD i 0 - voltage.getD (i - 1) 0
        else (voltage.getD (i + 1) 0 - voltage.getD (i - 1) 0) / 2))
      ((List.range n).map (fun i =>
        if i = 0 then soc.getD 1 0 - soc.getD 0 0
        else if i = n - 1 then soc.getD i 0 - soc.getD (i - 1) 0
        else (soc.getD (i + 1) 0 - soc.getD (i - 1) 0) / 2))) := by
    unfold rawDV
    rw [npGradient_eq voltage (by omega), npGradient_eq soc (by omega),
      hvl, hsl]
  rw [hraw, List.zipWith_map, List.zipWith_same]
  refine ⟨_, rfl, by simp, ?_⟩
  intro i hi
  rw [List.getD_eq_getElem _ 0 (by simpa using hi)]
  simp only [List.getElem_map, List.getElem_range]
  by_cases h0 : i = 0
  · subst h0
    have hs : soc.getD 1 0 - soc.getD 0 0 = st := by
      simpa using hstep 0 (by omega)
    have hnum : voltage.getD 1 0 - voltage.getD 0 0 = m * st := by
      rw [hlin 1 (by omega), hlin 0 (by omega), ← hs]
      ring
    rw [if_pos rfl, if_pos rfl, hnum, hs, mul_div_assoc, div_self hst,
      mul_one]
  · by_cases hlast : i = n - 1
    · have hi1 : 1 ≤ i := by omega
      have hs : soc.getD i 0 - soc.getD (i - 1) 0 = st := by
        have := hstep (i - 1) (by omega)
        rwa [show i - 1 + 1 = i from by omega] at this
      have hnum : voltage.getD i 0 - voltage.getD (i - 1) 0 = m * st := by
        rw [hlin i (by omega), hlin (i - 1) (by omega), ← hs]
        ring
      rw [if_neg h0, if_neg h0, if_pos hlast, if_pos hlast, hnum, hs,
        mul_div_assoc, div_self hst, mul_one]
    · have hi1 : 1 ≤ i := by omega
      have hi2 : i + 1 < n := by omega
      have hs1 : soc.getD (i + 1) 0 - soc.getD i 0 = st := hstep i hi2
      have hs2 : soc.getD i 0 - soc.getD (i - 1) 0 = st := by
        have := hstep (i - 1) (by omega)
        rwa [show i - 1 + 1 = i from by omega] at this
      have hden : soc.getD (i + 1) 0 - soc.getD (i - 1) 0 = 2 * st := by
        linarith
      have hnum : voltage.getD (i + 1) 0 - voltage.getD (i - 1) 0 =
          m * (2 * st) := by
        rw [hlin (i + 1) (by omega), hlin (i - 1) (by omega)]
        linear_combination m * hden
      rw [if_neg h0, if_neg h0, if_neg hlast, if_neg hlast, hnum, hden]
      field_simp

/-- Witness for C2 at `voltage = [5, 7, 9]`, `current = [1, 1, 1]`,
`soc = [0, 1, 2]` (step 1, slope 2). -/
theorem raw_dv_linear_slope_witness :
    ∃ l, rawDV [5, 7, 9] [0, 1, 2] = some l ∧ l.length = 3 ∧
      ∀ i, i < 3 → l.getD i 0 = 2 := by
  refine raw_dv_linear_slope 3 1 5 2 [5, 7, 9] [1, 1, 1] [0, 1, 2]
    (by omega) (by norm_num) (by decide) (by decide) ?_ ?_ ?_
  · norm_num [_validate_input, List.Chain']
  · intro i hi
    have hi2 : i < 2 := by omega
    interval_cases i <;> norm_num [List.getD]
  · intro i hi
    interval_cases i <;> norm_num [List.getD]

/-- Witness for C8's amended statement at `data = [3, 3]`, `w = 3` (the
oversized-window branch) and at `w = -1` (the `ValueError` branch). -/
theorem smooth_error_behaviour_witness :
    _smooth [3, 3] (-1) = .error .valueError ∧
    ∃ l, _smooth ([3, 3] : List ℚ) 3 = .ok l ∧
      l.length = max ([3, 3] : List ℚ).length (3 : ℤ).toNat -
        min ([3, 3] : List ℚ).length (3 : ℤ).toNat + 1 := by
  constructor
  · exact (smooth_error_behaviour [3, 3] (-1)).1 (by omega)
  · exact (smooth_error_behaviour [3, 3] 3).2.2 (by omega) (by decide)

lemma getD_true_of_ge (rem : List Bool) (j : ℕ) (h : rem.length ≤ j) :
    rem.getD j true = true := by
  rw [List.getD_eq_getElem?_getD, List.getElem?_eq_none h]
  rfl

lemma nmsStep_length (n d : ℕ) (rem : List Bool) (p : ℕ)
    (h : rem.length = n) : (nmsStep n d rem p).length = n := by
  unfold nmsStep
  split
  · exact h
  · simp

lemma nmsStep_getD (n d : ℕ) (rem : List Bool) (p : ℕ)
    (hlen : rem.length = n) (hp : rem.getD p true = false) (hpn : p < n)
    (j : ℕ) :
    (nmsStep n d rem p).getD j true =
      if j = p then false
      else if p ≤ j + d ∧ j ≤ p + d ∧ j < n then true
      else rem.getD j true := by
  unfold nmsStep
  rw [if_neg (show ¬ (rem.getD p true = true) from by simp only [hp]; simp)]
  by_cases hj : j < n
  · rw [List.getD_eq_getElem _ true (by simpa using hj)]
    simp only [List.getElem_map, List.getElem_range]
    by_cases hjp : j = p
    · rw [if_pos hjp, if_pos hjp]
    · rw [if_neg hjp, if_neg hjp]
      by_cases hw : p ≤ j + d ∧ j ≤ p + d
      · rw [if_pos hw, if_pos ⟨hw.1, hw.2, hj⟩]
      · rw [if_neg hw, if_neg (fun hc => hw ⟨hc.1, hc.2.1⟩)]
  · rw [getD_true_of_ge _ j (by simpa using Nat.le_of_not_lt hj)]
    rw [if_neg (fun hc : j = p => hj (hc ▸ hpn)),
      if_neg (fun hc => hj hc.2.2), getD_true_of_ge _ j (by omega)]

lemma nmsInv_step (y : List ℚ) (d : ℕ) (peaks : List ℕ) (p : ℕ)
    (hl : List ℕ)
    (hpk : ∀ q ∈ peaks, q < y.length)
    (hp_not : p ∉ hl)
    (hsort : ∀ q ∈ hl, y.getD q 0 ≤ y.getD p 0)
    (rem : List Bool)
    (inv : NmsInv y d peaks (p :: hl) rem) :
    NmsInv y d peaks hl (nmsStep y.length d rem p) := by
  by_cases hp : rem.getD p true = true
  · have hstep : nmsStep y.length d rem p = rem := by
      unfold nmsStep
      rw [if_pos hp]
    rw [hstep]
    refine ⟨inv.len, inv.live_mem, ?_, ?_⟩
    · intro i hi hnotin j hne h1 h2
      have hn : i ∉ p :: hl := by
        intro hc
        rcases List.mem_cons.mp hc with h | h
        · rw [h, hp] at hi
          exact absurd hi (by simp)
        · exact hnotin h
      exact inv.kept_clear i hi hn j hne h1 h2
    · intro i hip hi
      obtain ⟨k, hk1, hk2, hk3, hk4, hk5⟩ := inv.dead_dom i hip hi
      exact ⟨k, hk1, fun hc => hk2 (List.mem_cons_of_mem p hc),
        hk3, hk4, hk5⟩
  · have hpf : rem.getD p true = false := by
      cases hb : rem.getD p true
      · rfl
      · exact absurd hb hp
    have hpn : p < y.length := hpk p (inv.live_mem p hpf)
    have hchar := nmsStep_getD y.length d rem p inv.len hpf hpn
    refine ⟨nmsStep_length _ _ _ _ inv.len, ?_, ?_, ?_⟩
    · intro i hi
      rw [hchar i] at hi
      by_cases hip : i = p
      · exact hip ▸ inv.live_mem p hpf
      · rw [if_neg hip] at hi
        by_cases hw : p ≤ i + d ∧ i ≤ p + d ∧ i < y.length
        · rw [if_pos hw] at hi
          exact absurd hi (by simp)
        · rw [if_neg hw] at hi
          exact inv.live_mem i hi
    · intro i hi hnotin j hne h1 h2
      rw [hchar j]
      rw [hchar i] at hi
      by_cases hip : i = p
      · subst hip
        rw [if_neg (fun hc : j = i => hne hc)]
        by_cases hjn : j < y.length
        · rw [if_pos ⟨h1, h2, hjn⟩]
        · rw [if_neg (fun hc => hjn hc.2.2)]
          exact getD_true_of_ge _ j (by rw [inv.len]; omega)
      · rw [if_neg hip] at hi
        by_cases hw : p ≤ i + d ∧ i ≤ p + d ∧ i < y.length
        · rw [if_pos hw] at hi
          exact absurd hi (by simp)
        · rw [if_neg hw] at hi
          have hin : i ∉ p :: hl := by
            intro hc
            rcases List.mem_cons.mp hc with h | h
            · exact hip h
            · exact hnotin h
          have hclear := inv.kept_clear i hi hin
          have hjp : j ≠ p := by
            intro hc
            subst hc
            exact hp (hclear j hne h1 h2)
          rw [if_neg hjp]
          by_cases hw2 : p ≤ j + d ∧ j ≤ p + d ∧ j < y.length
          · rw [if_pos hw2]
          · rw [if_neg hw2]
            exact hclear j hne h1 h2
    · intro i hip hi
      have hin : i < y.length := hpk i hip
      rw [hchar i] at hi
      have hip2 : i ≠ p := by
        intro hc
        rw [if_pos hc] at hi
        exact absurd hi (by simp)
      rw [if_neg hip2] at hi
      by_cases hold : rem.getD i true = true
      · obtain ⟨k, hk1, hk2, hk3, hk4, hk5⟩ := inv.dead_dom i hip hold
        have hkp : k ≠ p := fun hc => hk2 (hc ▸ List.mem_cons_self p hl)
        have hknw : ¬ (p ≤ k + d ∧ k ≤ p + d) := by
          intro hc
          exact hp (inv.kept_clear k hk1 hk2 p (Ne.symm hkp) hc.2 hc.1)
        have hknew : (nmsStep y.length d rem p).getD k true = false := by
          rw [hchar k, if_neg hkp,
            if_neg (fun hc => hknw ⟨hc.1, hc.2.1⟩)]
          exact hk1
        exact ⟨k, hknew, fun hc => hk2 (List.mem_cons_of_mem p hc),
          hk3, hk4, hk5⟩
      · have holdf : rem.getD i true = false := by
          cases hb : rem.getD i true
          · rfl
          · exact absurd hb hold
        have hw : p ≤ i + d ∧ i ≤ p + d ∧ i < y.length := by
          by_contra hc
          rw [if_neg hc, holdf] at hi
          exact absurd hi (by simp)
        have hihl : i ∈ hl := by
          by_cases hmem : i ∈ p :: hl
          · rcases List.mem_cons.mp hmem with h | h
            · exact absurd h hip2
            · exact h
          · exact absurd
              (inv.kept_clear i holdf hmem p (Ne.symm hip2) hw.2.1 hw.1) hp
        refine ⟨p, ?_, hp_not, hw.2.1, hw.1, hsort i hihl⟩
        rw [hchar p, if_pos rfl]

lemma nmsInv_fold (y : List ℚ) (d : ℕ) (peaks : List ℕ)
    (hpk : ∀ q ∈ peaks, q < y.length) :
    ∀ (hl : List ℕ) (rem : List Bool), hl.Nodup →
      List.Pairwise (fun a b => y.getD b 0 ≤ y.getD a 0) hl →
      NmsInv y d peaks hl rem →
      NmsInv y d peaks [] (hl.foldl (nmsStep y.length d) rem)
  | [], _, _, _, inv => inv
  | p :: hl, rem, hnd, hpw, inv => by
    rw [List.foldl_cons]
    have hnd2 := List.nodup_cons.mp hnd
    have hpw2 := List.pairwise_cons.mp hpw
    exact nmsInv_fold y d peaks hpk hl _ hnd2.2 hpw2.2
      (nmsInv_step y d peaks p hl hpk hnd2.1 hpw2.1 rem inv)

lemma rem0_getD (y : List ℚ) (peaks : List ℕ) (i : ℕ) :
    ((List.range y.length).map (fun i => !peaks.contains i)).getD i true =
      if i < y.length then !peaks.contains i else true := by
  by_cases hi : i < y.length
  · rw [List.getD_eq_getElem _ true (by simpa using hi)]
    simp only [List.getElem_map, List.getElem_range]
    rw [if_pos hi]
  · rw [getD_true_of_ge _ i (by simpa using Nat.le_of_not_lt hi),
      if_neg hi]

lemma nmsInv_init (y : List ℚ) (d : ℕ) (peaks highest : List ℕ)
    (hpk : ∀ q ∈ peaks, q < y.length)
    (hmem : ∀ i, i ∈ highest ↔ i ∈ peaks) :
    NmsInv y d peaks highest
      ((List.range y.length).map (fun i => !peaks.contains i)) := by
  refine ⟨by simp, ?_, ?_, ?_⟩
  · intro i hi
    rw [rem0_getD] at hi
    by_cases hin : i < y.length
    · rw [if_pos hin] at hi
      simpa using hi
    · rw [if_neg hin] at hi
      exact absurd hi (by simp)
  · intro i hi hnotin
    exfalso
    have : i ∈ peaks := by
      rw [rem0_getD] at hi
      by_cases hin : i < y.length
      · rw [if_pos hin] at hi
        simpa using hi
      · rw [if_neg hin] at hi
        exact absurd hi (by simp)
    exact hnotin ((hmem i).mpr this)
  · intro i hip hi
    exfalso
    rw [rem0_getD, if_pos (hpk i hip)] at hi
    simp at hi
    exact hi hip

lemma mem_filter_range_not (n : ℕ) (g : ℕ → Bool) (i : ℕ) :
    i ∈ (List.range n).filter (fun j => !g j) ↔ i < n ∧ g i = false := by
  simp [List.mem_filter, List.mem_range]

/-- Full behaviour of the suppression pass for the configured case
`min_dist > 1`: the result is a subset of the candidates, any two result
indices are farther apart than the window, and every suppressed candidate
lies within the window of a retained candidate of value at least its own. -/
lemma nms_spec (y : List ℚ) (d : ℕ) (hd : 1 < d) (peaks : List ℕ)
    (hpk : ∀ q ∈ peaks, q < y.length) (hnd : peaks.Nodup) :
    (∀ i ∈ nms y d peaks, i ∈ peaks) ∧
    (∀ i ∈ nms y d peaks, ∀ j ∈ nms y d peaks, i ≠ j →
      ¬(i ≤ j + d ∧ j ≤ i + d)) ∧
    (∀ j ∈ peaks, j ∉ nms y d peaks →
      ∃ k ∈ nms y d peaks, j ≤ k + d ∧ k ≤ j + d ∧
        y.getD j 0 ≤ y.getD k 0) := by
  by_cases hc : 1 < peaks.length ∧ 1 < d
  · have hbeq : nms y d peaks = (List.range y.length).filter
        (fun i => !(((List.insertionSort
            (fun p q => y.getD p 0 ≤ y.getD q 0) peaks).reverse).foldl
          (nmsStep y.length d)
          ((List.range y.length).map (fun i => !peaks.contains i))).getD
            i true) := by
      unfold nms
      rw [if_pos hc]
    set H := (List.insertionSort
      (fun p q => y.getD p 0 ≤ y.getD q 0) peaks).reverse with hH
    set RF := H.foldl (nmsStep y.length d)
      ((List.range y.length).map (fun i => !peaks.contains i)) with hRF
    have hmemH : ∀ i, i ∈ H ↔ i ∈ peaks := by
      intro i
      rw [hH, List.mem_reverse]
      exact (List.perm_insertionSort _ peaks).mem_iff
    have hndH : H.Nodup := by
      rw [hH, List.nodup_reverse]
      exact (List.perm_insertionSort _ peaks).nodup_iff.mpr hnd
    have hpwH : List.Pairwise (fun a b => y.getD b 0 ≤ y.getD a 0) H := by
      rw [hH]
      rw [List.pairwise_reverse]
      haveI : IsTotal ℕ (fun p q => y.getD p 0 ≤ y.getD q 0) :=
        ⟨fun a b => le_total _ _⟩
      haveI : IsTrans ℕ (fun p q => y.getD p 0 ≤ y.getD q 0) :=
        ⟨fun a b c hab hbc => le_trans hab hbc⟩
      exact List.sorted_insertionSort _ peaks
    have invF : NmsInv y d peaks [] RF :=
      nmsInv_fold y d peaks hpk H _ hndH hpwH
        (nmsInv_init y d peaks H hpk hmemH)
    have hmemR : ∀ i, i ∈ nms y d peaks ↔
        (i < y.length ∧ RF.getD i true = false) := by
      intro i
      rw [hbeq]
      exact mem_filter_range_not _ _ i
    refine ⟨?_, ?_, ?_⟩
    · intro i hi
      exact invF.live_mem i ((hmemR i).mp hi).2
    · intro i hi j hj hne hw
      have hiL := (hmemR i).mp hi
      have hjL := (hmemR j).mp hj
      have := invF.kept_clear i hiL.2 (List.not_mem_nil i) j
        (Ne.symm hne) hw.1 hw.2
      rw [hjL.2] at this
      exact absurd this (by simp)
    · intro j hj hnj
      have hjn : j < y.length := hpk j hj
      have hjdead : RF.getD j true = true := by
        cases hb : RF.getD j true
        · exact absurd ((hmemR j).mpr ⟨hjn, hb⟩) hnj
        · rfl
      obtain ⟨k, hk1, _, hk3, hk4, hk5⟩ := invF.dead_dom j hj hjdead
      have hkn : k < y.length := hpk k (invF.live_mem k hk1)
      exact ⟨k, (hmemR k).mpr ⟨hkn, hk1⟩, hk3, hk4, hk5⟩
  · have hbeq : nms y d peaks = peaks := by
      unfold nms
      rw [if_neg hc]
    rw [hbeq]
    have hlen : peaks.length ≤ 1 := by
      by_contra h
      exact hc ⟨by omega, hd⟩
    refine ⟨fun i hi => hi, ?_, fun j hj hnj => absurd hj hnj⟩
    intro i hi j hj hne _
    cases peaks with
    | nil => simp at hi
    | cons x xs =>
      cases xs with
      | nil =>
        simp only [List.mem_singleton] at hi hj
        exact hne (hi.trans hj.symm)
      | cons z zs => simp at hlen

lemma le_foldl_max (b : ℚ) : ∀ l : List ℚ, b ≤ l.foldl max b
  | [] => le_refl b
  | x :: xs => le_trans (le_max_left b x) (le_foldl_max (max b x) xs)

lemma mem_le_foldl_max (b : ℚ) : ∀ l : List ℚ, ∀ a ∈ l, a ≤ l.foldl max b
  | x :: xs, a, ha => by
    rcases List.mem_cons.mp ha with h | h
    · rw [h, List.foldl_cons]
      exact le_trans (le_max_right b x) (le_foldl_max (max b x) xs)
    · rw [List.foldl_cons]
      exact mem_le_foldl_max (max b x) xs a h

lemma foldl_min_le (b : ℚ) : ∀ l : List ℚ, l.foldl min b ≤ b
  | [] => le_refl b
  | x :: xs => le_trans (foldl_min_le (min b x) xs) (min_le_left b x)

lemma foldl_min_le_mem (b : ℚ) : ∀ l : List ℚ, ∀ a ∈ l, l.foldl min b ≤ a
  | x :: xs, a, ha => by
    rcases List.mem_cons.mp ha with h | h
    · rw [h, List.foldl_cons]
      exact le_trans (foldl_min_le (min b x) xs) (min_le_right b x)
    · rw [List.foldl_cons]
      exact foldl_min_le_mem (min b x) xs a h

lemma getD_le_listMax (y : List ℚ) (i : ℕ) (hi : i < y.length) :
    y.getD i 0 ≤ listMax y := by
  cases y with
  | nil => simp at hi
  | cons x xs =>
    rw [List.getD_eq_getElem _ 0 hi]
    show _ ≤ xs.foldl max x
    rcases List.mem_cons.mp (List.getElem_mem hi) with h | h
    · rw [h]
      exact le_foldl_max x xs
    · exact mem_le_foldl_max x xs _ h

lemma listMin_le_getD (y : List ℚ) (i : ℕ) (hi : i < y.length) :
    listMin y ≤ y.getD i 0 := by
  cases y with
  | nil => simp at hi
  | cons x xs =>
    rw [List.getD_eq_getElem _ 0 hi]
    show xs.foldl min x ≤ _
    rcases List.mem_cons.mp (List.getElem_mem hi) with h | h
    · rw [h]
      exact foldl_min_le x xs
    · exact foldl_min_le_mem x xs _ h

lemma getD_default_of_ge (l : List ℚ) (j : ℕ) (h : l.length ≤ j) :
    l.getD j 0 = 0 := by
  rw [List.getD_eq_getElem?_getD, List.getElem?_eq_none h]
  rfl

/-- With a non-constant signal, a strictly negative relative threshold
normalizes strictly below the minimum, so the height test passes at every
index — the threshold filters nothing. -/
lemma normThres_lt_getD (y : List ℚ) (thres : ℚ) (hneg : thres < 0)
    (k : ℕ) (hk : k + 1 < y.length)
    (hne : y.getD (k + 1) 0 ≠ y.getD k 0)
    (i : ℕ) (hi : i < y.length) :
    normThres y thres < y.getD i 0 := by
  have hmaxmin : listMin y < listMax y := by
    rcases lt_or_gt_of_ne hne with h | h
    · exact lt_of_le_of_lt (listMin_le_getD y (k + 1) hk)
        (lt_of_lt_of_le h (getD_le_listMax y k (by omega)))
    · exact lt_of_le_of_lt (listMin_le_getD y k (by omega))
        (lt_of_lt_of_le h (getD_le_listMax y (k + 1) hk))
  have hneg2 : thres * (listMax y - listMin y) < 0 :=
    mul_neg_of_neg_of_pos hneg (by linarith)
  have hmin := listMin_le_getD y i hi
  unfold normThres
  linarith

lemma fillDy_of_no_zero (dy : List ℚ)
    (h : ∀ i, i < dy.length → dy.getD i 0 ≠ 0) :
    fillDy dy = dy := by
  unfold fillDy
  apply List.ext_getElem (by simp)
  intro i h1 h2
  simp only [List.getElem_map, List.getElem_range]
  rw [if_pos (h i (by simpa using h2))]
  exact List.getD_eq_getElem dy 0 h2

lemma fillDy_getD_zero (dy : List ℚ) (hall : ∀ x ∈ dy, x = 0) (i : ℕ) :
    (fillDy dy).getD i 0 = 0 := by
  have hz : ∀ j, dy.getD j 0 = 0 := by
    intro j
    by_cases hj : j < dy.length
    · rw [List.getD_eq_getElem _ 0 hj]
      exact hall _ (List.getElem_mem hj)
    · exact getD_default_of_ge dy j (by omega)
  have hz2 : ∀ j : ℕ, dy[j]?.getD 0 = 0 := by
    intro j
    rw [← List.getD_eq_getElem?_getD]
    exact hz j
  by_cases hi : i < dy.length
  · unfold fillDy
    rw [List.getD_eq_getElem _ 0 (by simpa using hi)]
    simp only [List.getElem_map, List.getElem_range]
    simp [hz, hz2]
  · exact getD_default_of_ge _ i (by simp [fillDy]; omega)

lemma npdiff_length (y : List ℚ) : (npdiff y).length = y.length - 1 := by
  simp [npdiff]

lemma npdiff_getD (y : List ℚ) (k : ℕ) (hk : k + 1 < y.length) :
    (npdiff y).getD k 0 = y.getD (k + 1) 0 - y.getD k 0 := by
  have hk2 : k < (npdiff y).length := by
    rw [npdiff_length]
    omega
  rw [List.getD_eq_getElem _ 0 hk2]
  unfold npdiff
  rw [List.getElem_zipWith]
  congr 1
  · rw [List.getElem_tail]
    exact (List.getD_eq_getElem y 0 hk).symm
  · exact (List.getD_eq_getElem y 0 (by omega)).symm

lemma getD_map_neg (dv : List ℚ) (i : ℕ) :
    (dv.map (fun x => -x)).getD i 0 = -(dv.getD i 0) := by
  by_cases hi : i < dv.length
  · rw [List.getD_eq_getElem _ 0 (by simpa using hi),
      List.getD_eq_getElem _ 0 hi, List.getElem_map]
  · rw [getD_default_of_ge _ i (by simpa using Nat.le_of_not_lt hi),
      getD_default_of_ge _ i (by omega)]
    simp

lemma mem_peakutilsCandidates (y : List ℚ) (thres : ℚ) (i : ℕ) :
    i ∈ peakutilsCandidates y thres ↔
      i + 1 < y.length ∧ 0 < i ∧
      (fillDy (npdiff y)).getD i 0 < 0 ∧
      0 < (fillDy (npdiff y)).getD (i - 1) 0 ∧
      normThres y thres < y.getD i 0 := by
  unfold peakutilsCandidates
  rw [List.mem_filter, List.mem_range]
  simp only [Bool.and_eq_true, decide_eq_true_eq]
  constructor
  · rintro ⟨_, ⟨⟨⟨h1, h2⟩, h3⟩, h4⟩, h5⟩
    exact ⟨h1, h2, h3, h4, h5⟩
  · rintro ⟨h1, h2, h3, h4, h5⟩
    exact ⟨by omega, ⟨⟨⟨h1, h2⟩, h3⟩, h4⟩, h5⟩

lemma peakutilsCandidates_lt (y : List ℚ) (thres : ℚ) :
    ∀ q ∈ peakutilsCandidates y thres, q < y.length := by
  intro q hq
  exact List.mem_range.mp (List.mem_of_mem_filter hq)

lemma peakutilsCandidates_nodup (y : List ℚ) (thres : ℚ) :
    (peakutilsCandidates y thres).Nodup :=
  (List.nodup_range _).filter _

/-- Behaviour of `peakutils.indexes` at the configured minimum distance:
the result is a subset of the candidates, any two result indices are
farther apart than the window, and every suppressed candidate lies within
the window of some retained candidate of value at least its own. -/
lemma peak_suppression_spec (y : List ℚ) (thres : ℚ) (r : List ℕ)
    (h : peakutilsIndexes y thres config.dv_window_size = some r) :
    (∀ i ∈ r, i ∈ peakutilsCandidates y thres) ∧
    (∀ i ∈ r, ∀ j ∈ r, i ≠ j →
      ¬(i ≤ j + config.dv_window_size ∧ j ≤ i + config.dv_window_size)) ∧
    (∀ j ∈ peakutilsCandidates y thres, j ∉ r →
      ∃ k ∈ r, j ≤ k + config.dv_window_size ∧
        k ≤ j + config.dv_window_size ∧ y.getD j 0 ≤ y.getD k 0) := by
  unfold peakutilsIndexes at h
  by_cases h0 : y.length = 0
  · rw [if_pos h0] at h
    exact absurd h (by simp)
  · rw [if_neg h0] at h
    by_cases hflat : countZeros (npdiff y) = y.length - 1
    · rw [if_pos hflat] at h
      have hr : r = [] := (Option.some.injEq _ _ ▸ h).symm
      subst hr
      have hallz : ∀ x ∈ npdiff y, x = 0 := by
        have hcount : (npdiff y).countP (fun d => decide (d = 0)) =
            (npdiff y).length := by
          rw [npdiff_length]
          exact hflat
        intro x hx
        have := List.countP_eq_length.mp hcount x hx
        simpa using this
      refine ⟨by simp, by simp, ?_⟩
      intro j hj _
      exfalso
      have hmem := (mem_peakutilsCandidates y thres j).mp hj
      rw [fillDy_getD_zero (npdiff y) hallz j] at hmem
      exact absurd hmem.2.2.1 (by norm_num)
    · rw [if_neg hflat] at h
      have hr : r = nms y config.dv_window_size
          (peakutilsCandidates y thres) := (Option.some.injEq _ _ ▸ h).symm
      subst hr
      have hspec := nms_spec y config.dv_window_size (by norm_num [config])
        (peakutilsCandidates y thres) (peakutilsCandidates_lt y thres)
        (peakutilsCandidates_nodup y thres)
      exact hspec

/-- C5 counterexample.  On the curve `[0, -1/100, 0]` the trough at index
1 has value `-1/100`, which is *not* below `lam_ne_threshold = -1/20`,
yet the detector reports it: peakutils treats the threshold as a relative
fraction of the curve range, so the negative setting filters nothing. -/
theorem lam_ne_shallow_trough_cex :
    _detect_lam_ne [0, -(1/100), 0] = some [1] ∧
    ([0, -(1/100), 0] : List ℚ).getD 1 0 = -(1/100) ∧
    ¬ ((-(1/100) : ℚ) < config.lam_ne_threshold) := by
  refine ⟨?_, ?_, ?_⟩
  · norm_num [_detect_lam_ne, peakutilsIndexes, peakutilsCandidates, nms,
      fillDy, npdiff, countZeros, normThres, listMax, listMin, config,
      List.range_succ, List.getD, List.filter, List.countP, List.countP.go,
      max_def, min_def]
  · norm_num [List.getD]
  · norm_num [config]

/-- C5 (amended).  The negative-electrode detector returns peakutils peaks
of the negated smoothed curve with the *relative* threshold
`lam_ne_threshold` and window `dv_window_size`: every result index is a
candidate peak of the negated curve, and — because the negative relative
threshold normalizes below the curve minimum — for curves without flat
segments an index is a candidate if and only if it is a strict trough of
the original curve, with **no** depth requirement; the result is then the
minimum-distance suppression of those troughs. -/
theorem lam_ne_trough_detection (dv : List ℚ) (r : List ℕ)
    (h : _detect_lam_ne dv = some r) :
    (∀ i ∈ r, i ∈ peakutilsCandidates (dv.map (fun x => -x))
        config.lam_ne_threshold) ∧
    ((∀ k, k + 1 < dv.length → dv.getD (k + 1) 0 ≠ dv.getD k 0) →
      ∀ i, i ∈ peakutilsCandidates (dv.map (fun x => -x))
          config.lam_ne_threshold ↔
        0 < i ∧ i + 1 < dv.length ∧ dv.getD i 0 < dv.getD (i - 1) 0 ∧
          dv.getD i 0 < dv.getD (i + 1) 0) := by
  have hspec := peak_suppression_spec (dv.map (fun x => -x))
    config.lam_ne_threshold r h
  refine ⟨hspec.1, ?_⟩
  intro hnp i
  have hylen : (dv.map (fun x => -x)).length = dv.length := by simp
  have hdyne : ∀ j, j < (npdiff (dv.map (fun x => -x))).length →
      (npdiff (dv.map (fun x => -x))).getD j 0 ≠ 0 := by
    intro j hj
    have hj2 : j + 1 < (dv.map (fun x => -x)).length := by
      rw [npdiff_length] at hj
      omega
    rw [npdiff_getD _ j hj2, getD_map_neg, getD_map_neg]
    intro hc
    exact hnp j (by rw [← hylen]; omega) (by linarith)
  rw [mem_peakutilsCandidates, fillDy_of_no_zero _ hdyne]
  constructor
  · rintro ⟨h1, h2, h3, h4, _⟩
    have h1d : i + 1 < dv.length := by rwa [hylen] at h1
    refine ⟨h2, h1d, ?_, ?_⟩
    · have heq := npdiff_getD (dv.map (fun x => -x)) (i - 1)
        (by rw [hylen]; omega)
      rw [show i - 1 + 1 = i from by omega] at heq
      rw [heq, getD_map_neg, getD_map_neg] at h4
      linarith
    · rw [npdiff_getD _ i h1, getD_map_neg, getD_map_neg] at h3
      linarith
  · rintro ⟨h2, h1, h3, h4⟩
    have h1y : i + 1 < (dv.map (fun x => -x)).length := by rwa [hylen]
    refine ⟨h1y, h2, ?_, ?_, ?_⟩
    · rw [npdiff_getD _ i h1y, getD_map_neg, getD_map_neg]
      linarith
    · have heq := npdiff_getD (dv.map (fun x => -x)) (i - 1)
        (by rw [hylen]; omega)
      rw [show i - 1 + 1 = i from by omega] at heq
      rw [heq, getD_map_neg, getD_map_neg]
      linarith
    · refine normThres_lt_getD _ config.lam_ne_threshold
        (by norm_num [config]) i h1y ?_ i (by omega)
      rw [getD_map_neg, getD_map_neg]
      intro hc
      have : dv.getD (i + 1) 0 = dv.getD i 0 := by linarith
      linarith

/-- Witness for C5's amended statement on the curve `[0, -1/100, 0]`
(result `[1]`; the curve has no flat segment, so the trough
characterization applies). -/
theorem lam_ne_trough_detection_witness :
    (∀ i ∈ [1], i ∈ peakutilsCandidates
        (([0, -(1/100), 0] : List ℚ).map (fun x => -x))
        config.lam_ne_threshold) ∧
    (∀ i, i ∈ peakutilsCandidates
        (([0, -(1/100), 0] : List ℚ).map (fun x => -x))
        config.lam_ne_threshold ↔
      0 < i ∧ i + 1 < ([0, -(1/100), 0] : List ℚ).length ∧
        ([0, -(1/100), 0] : List ℚ).getD i 0 <
          ([0, -(1/100), 0] : List ℚ).getD (i - 1) 0 ∧
        ([0, -(1/100), 0] : List ℚ).getD i 0 <
          ([0, -(1/100), 0] : List ℚ).getD (i + 1) 0) := by
  have hdet : _detect_lam_ne [0, -(1/100), 0] = some [1] := by
    norm_num [_detect_lam_ne, peakutilsIndexes, peakutilsCandidates, nms,
      fillDy, npdiff, countZeros, normThres, listMax, listMin, config,
      List.range_succ, List.getD, List.filter, List.countP, List.countP.go,
      max_def, min_def]
  refine ⟨(lam_ne_trough_detection [0, -(1/100), 0] [1] hdet).1,
    (lam_ne_trough_detection [0, -(1/100), 0] [1] hdet).2 ?_⟩
  intro k hk
  simp only [List.length_cons, List.length_nil] at hk
  have hk2 : k < 2 := by omega
  interval_cases k <;> norm_num [List.getD]

/-- C6 counterexample.  On `cexCurve` the candidates are `[2, 6, 10]`,
with 6 and 10 inside one suppression window and the curve higher at 6
than at 10; yet the detector retains 10 and discards 6 (the highest peak
2 claimed 6 first), refuting "the higher-magnitude peak is the one
retained" for nearby candidate pairs. -/
theorem nms_higher_discarded_cex :
    peakutilsCandidates cexCurve config.lam_pe_threshold = [2, 6, 10] ∧
    _detect_lam_pe cexCurve = some [2, 10] ∧
    10 - 6 < config.dv_window_size ∧
    cexCurve.getD 10 0 < cexCurve.getD 6 0 ∧
    6 ∉ [2, 10] ∧ 10 ∈ [2, 10] := by
  refine ⟨?_, ?_, ?_, ?_, ?_, ?_⟩
  · norm_num [peakutilsCandidates, cexCurve, fillDy, npdiff, normThres,
      listMax, listMin, config, List.range_succ, List.getD, List.filter,
      max_def, min_def]
  · norm_num [_detect_lam_pe, cexCurve, peakutilsIndexes,
      peakutilsCandidates, nms, nmsStep, fillDy, npdiff, countZeros,
      normThres, listMax, listMin, config, List.range_succ, List.getD,
      List.filter, List.countP, List.countP.go, List.insertionSort,
      List.orderedInsert, List.contains, max_def, min_def]
  · norm_num [config]
  · norm_num [cexCurve, List.getD]
  · decide
  · decide

/-- C6 (amended).  For every curve and each of the three degradation-mode
detectors: no two result indices lie within the configured minimum peak
separation of each other, and suppression is greedy from the globally
highest candidate — every discarded candidate lies within the window of
some *retained* candidate whose (possibly negated) curve value is at
least its own.  The claim's stronger tie-break — that of two candidates
within one window the higher-magnitude one is always the retained one —
fails, because the higher candidate may itself be suppressed by a still
higher peak, letting its lower neighbour survive. -/
theorem mode_min_dist_nms (dv : List ℚ) (r : List ℕ) :
    (_detect_lam_pe dv = some r →
      (∀ i ∈ r, ∀ j ∈ r, i ≠ j →
        ¬(i ≤ j + config.dv_window_size ∧ j ≤ i + config.dv_window_size)) ∧
      (∀ j ∈ peakutilsCandidates dv config.lam_pe_threshold, j ∉ r →
        ∃ k ∈ r, j ≤ k + config.dv_window_size ∧
          k ≤ j + config.dv_window_size ∧ dv.getD j 0 ≤ dv.getD k 0)) ∧
    (_detect_lam_ne dv = some r →
      (∀ i ∈ r, ∀ j ∈ r, i ≠ j →
        ¬(i ≤ j + config.dv_window_size ∧ j ≤ i + config.dv_window_size)) ∧
      (∀ j ∈ peakutilsCandidates (dv.map (fun x => -x))
          config.lam_ne_threshold, j ∉ r →
        ∃ k ∈ r, j ≤ k + config.dv_window_size ∧
          k ≤ j + config.dv_window_size ∧
          (dv.map (fun x => -x)).getD j 0 ≤
            (dv.map (fun x => -x)).getD k 0)) ∧
    (_detect_lli dv = some r →
      (∀ i ∈ r, ∀ j ∈ r, i ≠ j →
        ¬(i ≤ j + config.dv_window_size ∧ j ≤ i + config.dv_window_size)) ∧
      (∀ j ∈ peakutilsCandidates dv config.lli_threshold, j ∉ r →
        ∃ k ∈ r, j ≤ k + config.dv_window_size ∧
          k ≤ j + config.dv_window_size ∧ dv.getD j 0 ≤ dv.getD k 0)) := by
  refine ⟨fun h => ?_, fun h => ?_, fun h => ?_⟩
  · have hs := peak_suppression_spec dv config.lam_pe_threshold r h
    exact ⟨hs.2.1, hs.2.2⟩
  · have hs := peak_suppression_spec (dv.map (fun x => -x))
      config.lam_ne_threshold r h
    exact ⟨hs.2.1, hs.2.2⟩
  · have hs := peak_suppression_spec dv config.lli_threshold r h
    exact ⟨hs.2.1, hs.2.2⟩

/-- Witness for C6's amended statement: the lam-pe detector on `cexCurve`
returns `[2, 10]`, whose indices are separated by more than the window. -/
theorem mode_min_dist_nms_witness :
    ∀ i ∈ [2, 10], ∀ j ∈ [2, 10], i ≠ j →
      ¬(i ≤ j + config.dv_window_size ∧ j ≤ i + config.dv_window_size) :=
  ((mode_min_dist_nms cexCurve [2, 10]).1 (by
    norm_num [_detect_lam_pe, cexCurve, peakutilsIndexes,
      peakutilsCandidates, nms, nmsStep, fillDy, npdiff, countZeros,
      normThres, listMax, listMin, config, List.range_succ, List.getD,
      List.filter, List.countP, List.countP.go, List.insertionSort,
      List.orderedInsert, List.contains, max_def, min_def])).1

end EVSOH

